import Mathlib

/-!
Verification of the emission allocation engine in
`src/pl_aa_emissions_calc.py` (`class EmissionSystem`).

Python dicts are modelled as association lists over `String` keys
(first matching key wins, as for a dict with unique keys), real numbers
as `ℚ`. Fallible operations of the source — direct indexing `d[k]` and
division — are modelled in `Option`, so that totality of
`process_snapshot` is a provable statement rather than an assumption.
-/

set_option autoImplicit false

namespace TokenDist

/-- Association-list model of a Python dict with string keys. -/
abbrev Dict (α : Type) : Type := List (String × α)

/-- Keys of a dict, in order. -/
def dkeys {α : Type} (d : Dict α) : List String := d.map Prod.fst

/-- Fallible lookup, `d[k]`: the first entry whose key is `k`. -/
def dget? {α : Type} : Dict α → String → Option α
  | [], _ => none
  | (k1, v) :: rest, k => if k = k1 then some v else dget? rest k

/-- Defaulting lookup, `d.get(k, v0)`. -/
def dgetD {α : Type} (d : Dict α) (k : String) (v0 : α) : α :=
  (dget? d k).getD v0

/-- Guarded division: `a / b`, failing on a zero divisor
(models Python raising `ZeroDivisionError`). -/
def qdiv? (a b : ℚ) : Option ℚ :=
  if b = 0 then none else some (a / b)

/-- Models `claim_decisions.get(user, {}).get(pillar, False)`. -/
def claimGet (cd : Dict (Dict Bool)) (user pillar : String) : Bool :=
  dgetD (dgetD cd user []) pillar false

/-- Per-pillar configuration `{"weight": w, "emission_pct": e}`. -/
structure PillarConfig where
  weight : ℚ
  emission_pct : ℚ
  deriving DecidableEq, Repr

/-- The `EmissionSystem` instance state:
`total_emissions`, `pillar_configs` and the owned `rollover_points`. -/
structure EmissionSystem where
  total_emissions : ℚ
  pillar_configs : Dict PillarConfig
  rollover_points : Dict (Dict ℚ)
  deriving DecidableEq, Repr

/-- Models `set(self.rollover_points.keys()) | set(new_contributions.keys())`,
as a duplicate-free list. -/
def allUsers (ro nc : Dict (Dict ℚ)) : List String :=
  (dkeys ro ++ dkeys nc).dedup

/-- Stage 1 of `process_snapshot`: merge rollover points and new
contributions over all users, per configured pillar
(`prev.get(pillar, 0) + new.get(pillar, 0)`). -/
def currentPoints (cfg : Dict PillarConfig) (ro nc : Dict (Dict ℚ)) :
    Dict (Dict ℚ) :=
  (allUsers ro nc).map fun user =>
    (user, cfg.map fun pc =>
      (pc.1, dgetD (dgetD ro user []) pc.1 0 + dgetD (dgetD nc user []) pc.1 0))

/-- Models `d[k] += v`: fails (KeyError) when `k` is absent, otherwise adds `v`
to the first entry with key `k`. -/
def setAdd : Dict ℚ → String → ℚ → Option (Dict ℚ)
  | [], _, _ => none
  | (k1, v1) :: rest, k, v =>
    if k = k1 then some ((k1, v1 + v) :: rest)
    else (setAdd rest k v).map fun rest2 => (k1, v1) :: rest2

/-- Inner loop of stage 2: `for pillar, points in pts.items():
pillar_totals[pillar] += points`. -/
def addPoints : Dict ℚ → Dict ℚ → Option (Dict ℚ)
  | acc, [] => some acc
  | acc, q :: rest => (setAdd acc q.1 q.2).bind fun acc2 => addPoints acc2 rest

/-- Outer loop of stage 2: iterate over `current_points.values()`. -/
def accumulateTotals : Dict ℚ → Dict (Dict ℚ) → Option (Dict ℚ)
  | acc, [] => some acc
  | acc, up :: rest => (addPoints acc up.2).bind fun acc2 => accumulateTotals acc2 rest

/-- Stage 2 of `process_snapshot`: start from
`{pillar: 0 for pillar in self.pillar_configs.keys()}` and accumulate
every user's points. -/
def computePillarTotals (cfg : Dict PillarConfig) (cp : Dict (Dict ℚ)) :
    Option (Dict ℚ) :=
  accumulateTotals (cfg.map fun pc => (pc.1, (0 : ℚ))) cp

/-- Stage 3 of `process_snapshot`:
`tokens_allocated[pillar] = self.total_emissions * (weight * emission_pct)`. -/
def tokensAllocated (te : ℚ) (cfg : Dict PillarConfig) : Dict ℚ :=
  cfg.map fun pc => (pc.1, te * (pc.2.weight * pc.2.emission_pct))

/-- Inner loop of stage 4, one user's row: look up
`pillar_totals[pillar]` (fallible), compute the guarded share, look up
`tokens_allocated[pillar]` (fallible), and gate by the claim decision. -/
def awardRow (totals alloc : Dict ℚ) (cd : Dict (Dict Bool)) (user : String) :
    Dict ℚ → Option (Dict ℚ)
  | [] => some []
  | q :: rest =>
    (dget? totals q.1).bind fun total_points =>
    (if total_points > 0 then qdiv? q.2 total_points else some 0).bind fun share =>
    (dget? alloc q.1).bind fun alloc_p =>
    (awardRow totals alloc cd user rest).map fun restRow =>
      (q.1, if claimGet cd user q.1 then alloc_p * share else 0) :: restRow

/-- Stage 4 of `process_snapshot`: award tokens user by user. -/
def awardAll (totals alloc : Dict ℚ) (cd : Dict (Dict Bool)) :
    Dict (Dict ℚ) → Option (Dict (Dict ℚ))
  | [] => some []
  | up :: rest =>
    (awardRow totals alloc cd up.1 up.2).bind fun row =>
    (awardAll totals alloc cd rest).map fun restAll => (up.1, row) :: restAll

/-- Stage 5 of `process_snapshot`: reset claimed pillars to `0`, carry
unclaimed merged points forward. -/
def newRollover (cd : Dict (Dict Bool)) (cp : Dict (Dict ℚ)) : Dict (Dict ℚ) :=
  cp.map fun up =>
    (up.1, up.2.map fun q => (q.1, if claimGet cd up.1 q.1 then 0 else q.2))

/-- The result bundle returned by `process_snapshot`. -/
structure SnapshotResult where
  user_tokens : Dict (Dict ℚ)
  pillar_totals : Dict ℚ
  current_points : Dict (Dict ℚ)
  rollover_points : Dict (Dict ℚ)
  deriving DecidableEq, Repr

/-- The method `EmissionSystem.process_snapshot`, as a function of the system's
configuration and prior rollover state. `none` models an uncaught
exception (KeyError / ZeroDivisionError). -/
def processSnapshot (te : ℚ) (cfg : Dict PillarConfig) (ro nc : Dict (Dict ℚ))
    (cd : Dict (Dict Bool)) : Option SnapshotResult :=
  let current_points := currentPoints cfg ro nc
  (computePillarTotals cfg current_points).bind fun pillar_totals =>
  let tokens_allocated := tokensAllocated te cfg
  (awardAll pillar_totals tokens_allocated cd current_points).map fun user_tokens =>
  { user_tokens := user_tokens
    pillar_totals := pillar_totals
    current_points := current_points
    rollover_points := newRollover cd current_points }

/-- The stateful method call: returns the result and the system with
`self.rollover_points` replaced by the new rollover mapping. -/
def EmissionSystem.process (sys : EmissionSystem) (nc : Dict (Dict ℚ))
    (cd : Dict (Dict Bool)) : Option (SnapshotResult × EmissionSystem) :=
  (processSnapshot sys.total_emissions sys.pillar_configs sys.rollover_points nc cd).map
    fun r => (r, { sys with rollover_points := r.rollover_points })

/-- Rollover states reachable from the initial empty state
(`self.rollover_points = {}`) by successful `process_snapshot` calls. -/
inductive Reachable (te : ℚ) (cfg : Dict PillarConfig) : Dict (Dict ℚ) → Prop where
  | start : Reachable te cfg []
  | step (ro nc cd r) : Reachable te cfg ro →
      processSnapshot te cfg ro nc cd = some r →
      Reachable te cfg r.rollover_points

/-- The inner row built by stage 1 for one user (helper naming the
per-user mapping of `currentPoints`). -/
def pointsRow (cfg : Dict PillarConfig) (ro nc : Dict (Dict ℚ)) (user : String) :
    Dict ℚ :=
  cfg.map fun pc =>
    (pc.1, dgetD (dgetD ro user []) pc.1 0 + dgetD (dgetD nc user []) pc.1 0)

/-- Sum of the values of all entries of `pts` whose key is `k`
(what the stage-2 loop adds to `pillar_totals[k]` for one user). -/
def sumKey (pts : Dict ℚ) (k : String) : ℚ :=
  ((pts.filter fun q => q.1 = k).map Prod.snd).sum

/-- Total contributed to pillar `k` over all users' rows. -/
def colSum (cp : Dict (Dict ℚ)) (k : String) : ℚ :=
  (cp.map fun up => sumKey up.2 k).sum

/-- Sum over all users of a per-user per-pillar mapping at pillar `p`. -/
def userSumAt (d : Dict (Dict ℚ)) (p : String) : ℚ :=
  (d.map fun up => dgetD up.2 p 0).sum

/-- The token value stage 4 computes for one user/pillar cell, with the
fallible lookups replaced by defaulting ones (they are proved to agree
when the pillar is configured). -/
def awardValue (totals alloc : Dict ℚ) (cd : Dict (Dict Bool))
    (user pillar : String) (points : ℚ) : ℚ :=
  if claimGet cd user pillar then
    dgetD alloc pillar 0 *
      (if dgetD totals pillar 0 > 0 then points / dgetD totals pillar 0 else 0)
  else 0

/-- The `user_tokens` mapping stage 4 produces, in non-fallible form. -/
def userTokensOf (totals alloc : Dict ℚ) (cd : Dict (Dict Bool))
    (cp : Dict (Dict ℚ)) : Dict (Dict ℚ) :=
  cp.map fun up =>
    (up.1, up.2.map fun q => (q.1, awardValue totals alloc cd up.1 q.1 q.2))

/-! Concrete fixtures, from the worked example of the specification:
one pillar with weight 1 and emission percentage 1/4, a 10000-token
budget, users A and B contributing 100 and 300 points. -/

def exCfg : Dict PillarConfig := [("P", ⟨1, 1/4⟩)]

def exNc : Dict (Dict ℚ) := [("A", [("P", 100)]), ("B", [("P", 300)])]

def exCd : Dict (Dict Bool) := [("A", [("P", true)])]

def exCdAll : Dict (Dict Bool) := [("A", [("P", true)]), ("B", [("P", true)])]

def exResult : SnapshotResult :=
  { user_tokens := [("A", [("P", 625)]), ("B", [("P", 0)])]
    pillar_totals := [("P", 400)]
    current_points := [("A", [("P", 100)]), ("B", [("P", 300)])]
    rollover_points := [("A", [("P", 0)]), ("B", [("P", 300)])] }

def exResultAll : SnapshotResult :=
  { user_tokens := [("A", [("P", 625)]), ("B", [("P", 1875)])]
    pillar_totals := [("P", 400)]
    current_points := [("A", [("P", 100)]), ("B", [("P", 300)])]
    rollover_points := [("A", [("P", 0)]), ("B", [("P", 0)])] }

/-- Claim decisions with an extra entry for a user Z who never contributed. -/
def exCdZ : Dict (Dict Bool) := ("Z", [("P", true)]) :: exCd

/-- A negative contribution, to exercise the nonpositive-total guard. -/
def exNcNeg : Dict (Dict ℚ) := [("A", [("P", -5)])]

def exCdNeg : Dict (Dict Bool) := [("A", [("P", true)])]

def exResultNeg : SnapshotResult :=
  { user_tokens := [("A", [("P", 0)])]
    pillar_totals := [("P", -5)]
    current_points := [("A", [("P", -5)])]
    rollover_points := [("A", [("P", 0)])] }

/-- The run on an empty period: nobody contributes, nothing is claimed. -/
def exEmptyResult : SnapshotResult :=
  { user_tokens := []
    pillar_totals := [("P", 0)]
    current_points := []
    rollover_points := [] }

/-! ### Basic dictionary lemmas -/

@[simp] theorem dget?_nil {α : Type} (k : String) : dget? ([] : Dict α) k = none := rfl

@[simp] theorem dget?_cons {α : Type} (k1 : String) (v : α) (rest : Dict α) (k : String) :
    dget? ((k1, v) :: rest) k = if k = k1 then some v else dget? rest k := rfl

@[simp] theorem dkeys_nil {α : Type} : dkeys ([] : Dict α) = [] := rfl

@[simp] theorem dkeys_cons {α : Type} (e : String × α) (rest : Dict α) :
    dkeys (e :: rest) = e.1 :: dkeys rest := rfl

@[simp] theorem dkeys_append {α : Type} (d1 d2 : Dict α) :
    dkeys (d1 ++ d2) = dkeys d1 ++ dkeys d2 := by
  simp [dkeys]

theorem dget?_eq_none_iff {α : Type} {d : Dict α} {k : String} :
    dget? d k = none ↔ k ∉ dkeys d := by
  induction d with
  | nil => simp
  | cons e rest ih =>
    obtain ⟨k1, v⟩ := e
    by_cases h : k = k1 <;> simp [h, ih]

theorem dget?_isSome_iff {α : Type} {d : Dict α} {k : String} :
    (dget? d k).isSome ↔ k ∈ dkeys d := by
  rcases h : dget? d k with _ | v
  · simp [dget?_eq_none_iff.mp h]
  · simp only [Option.isSome_some, true_iff]
    by_contra hk
    rw [dget?_eq_none_iff.mpr hk] at h
    cases h

theorem mem_of_dget? {α : Type} {d : Dict α} {k : String} {v : α}
    (h : dget? d k = some v) : (k, v) ∈ d := by
  induction d with
  | nil => simp at h
  | cons e rest ih =>
    obtain ⟨k1, v1⟩ := e
    by_cases hk : k = k1
    · subst hk
      simp at h
      simp [h]
    · simp [hk] at h
      simp [ih h]

theorem dget?_of_mem_nodup {α : Type} {d : Dict α} {k : String} {v : α}
    (hnd : (dkeys d).Nodup) (hm : (k, v) ∈ d) : dget? d k = some v := by
  induction d with
  | nil => simp at hm
  | cons e rest ih =>
    obtain ⟨k1, v1⟩ := e
    simp only [dkeys_cons, List.nodup_cons] at hnd
    rcases List.mem_cons.mp hm with h | h
    · cases h
      simp
    · have hk : k ≠ k1 := by
        rintro rfl
        exact hnd.1 (by simpa [dkeys] using List.mem_map_of_mem Prod.fst h)
      simp [hk, ih hnd.2 h]

theorem dget?_map_entry {α β : Type} (f : String → α → β) (l : Dict α) (k : String) :
    dget? (l.map fun p => (p.1, f p.1 p.2)) k = (dget? l k).map (f k) := by
  induction l with
  | nil => simp
  | cons e rest ih =>
    obtain ⟨k1, v⟩ := e
    by_cases h : k = k1
    · subst h
      simp
    · simp [h, ih]

theorem dkeys_map_entry {α β : Type} (f : String → α → β) (l : Dict α) :
    dkeys (l.map fun p => (p.1, f p.1 p.2)) = dkeys l := by
  simp [dkeys]

theorem dget?_map_key {α : Type} (g : String → α) (l : List String) (k : String) :
    dget? (l.map fun a => (a, g a)) k = if k ∈ l then some (g k) else none := by
  induction l with
  | nil => simp
  | cons a rest ih =>
    by_cases h : k = a
    · subst h
      simp
    · simp [h, ih]

theorem dkeys_map_key {α : Type} (g : String → α) (l : List String) :
    dkeys (l.map fun a => (a, g a)) = l := by
  induction l with
  | nil => rfl
  | cons a rest ih => simp [dkeys] at ih ⊢; exact ih

theorem dkeys_map_fst {α β : Type} (f : String × α → String × β) (l : List (String × α))
    (hf : ∀ e, (f e).1 = e.1) : dkeys (l.map f) = dkeys l := by
  induction l with
  | nil => rfl
  | cons e rest ih =>
    simp only [List.map_cons, dkeys_cons, ih]
    rw [hf e]

theorem dget?_map_fst {α β : Type} (f : String × α → String × β) (l : List (String × α))
    (hf : ∀ e, (f e).1 = e.1) (k : String) :
    dget? (l.map f) k = (dget? l k).map fun v => (f (k, v)).2 := by
  induction l with
  | nil => rfl
  | cons e rest ih =>
    obtain ⟨k1, v1⟩ := e
    rcases hfe : f (k1, v1) with ⟨k2, v2⟩
    have hk2 : k2 = k1 := by
      have h0 := hf (k1, v1)
      rw [hfe] at h0
      exact h0
    subst hk2
    simp only [List.map_cons, hfe, dget?_cons]
    by_cases h : k = k2
    · subst h
      simp [hfe]
    · simp [h, ih]

/-! ### The user set and stage 1 (merge) -/

theorem mem_allUsers {ro nc : Dict (Dict ℚ)} {u : String} :
    u ∈ allUsers ro nc ↔ u ∈ dkeys ro ∨ u ∈ dkeys nc := by
  simp [allUsers, List.mem_dedup]

theorem nodup_allUsers (ro nc : Dict (Dict ℚ)) : (allUsers ro nc).Nodup :=
  List.nodup_dedup _

theorem currentPoints_eq (cfg : Dict PillarConfig) (ro nc : Dict (Dict ℚ)) :
    currentPoints cfg ro nc = (allUsers ro nc).map fun u => (u, pointsRow cfg ro nc u) :=
  rfl

theorem dget?_currentPoints (cfg : Dict PillarConfig) (ro nc : Dict (Dict ℚ)) (u : String) :
    dget? (currentPoints cfg ro nc) u =
      if u ∈ allUsers ro nc then some (pointsRow cfg ro nc u) else none := by
  rw [currentPoints_eq]
  exact dget?_map_key _ _ _

theorem dkeys_currentPoints (cfg : Dict PillarConfig) (ro nc : Dict (Dict ℚ)) :
    dkeys (currentPoints cfg ro nc) = allUsers ro nc := by
  rw [currentPoints_eq]
  exact dkeys_map_key _ _

theorem dget?_pointsRow (cfg : Dict PillarConfig) (ro nc : Dict (Dict ℚ)) (u p : String) :
    dget? (pointsRow cfg ro nc u) p =
      (dget? cfg p).map fun _ => dgetD (dgetD ro u []) p 0 + dgetD (dgetD nc u []) p 0 :=
  dget?_map_entry (fun k _ => dgetD (dgetD ro u []) k 0 + dgetD (dgetD nc u []) k 0) cfg p

theorem dkeys_pointsRow (cfg : Dict PillarConfig) (ro nc : Dict (Dict ℚ)) (u : String) :
    dkeys (pointsRow cfg ro nc u) = dkeys cfg :=
  dkeys_map_entry (fun k _ => dgetD (dgetD ro u []) k 0 + dgetD (dgetD nc u []) k 0) cfg

/-! ### Stage 2 (pillar totals) -/

theorem setAdd_eq_none_iff {d : Dict ℚ} {k : String} {v : ℚ} :
    setAdd d k v = none ↔ k ∉ dkeys d := by
  induction d with
  | nil => simp [setAdd]
  | cons e rest ih =>
    obtain ⟨k1, v1⟩ := e
    by_cases h : k = k1
    · subst h
      simp [setAdd]
    · simp [setAdd, h, ih]

theorem setAdd_isSome {d : Dict ℚ} {k : String} (v : ℚ) (h : k ∈ dkeys d) :
    ∃ d2, setAdd d k v = some d2 := by
  rcases h2 : setAdd d k v with _ | d2
  · exact absurd h (setAdd_eq_none_iff.mp h2)
  · exact ⟨d2, rfl⟩

theorem setAdd_dkeys {d d2 : Dict ℚ} {k : String} {v : ℚ}
    (h : setAdd d k v = some d2) : dkeys d2 = dkeys d := by
  induction d generalizing d2 with
  | nil => simp [setAdd] at h
  | cons e rest ih =>
    obtain ⟨k1, v1⟩ := e
    by_cases hk : k = k1
    · subst hk
      simp [setAdd] at h
      subst h
      simp
    · simp only [setAdd, if_neg hk, Option.map_eq_some'] at h
      obtain ⟨rest2, h1, rfl⟩ := h
      simp [ih h1]

theorem setAdd_dget? {d d2 : Dict ℚ} {k : String} {v : ℚ}
    (h : setAdd d k v = some d2) (k3 : String) :
    dget? d2 k3 = (dget? d k3).map fun w => if k3 = k then w + v else w := by
  induction d generalizing d2 with
  | nil => simp [setAdd] at h
  | cons e rest ih =>
    obtain ⟨k1, v1⟩ := e
    by_cases hk : k = k1
    · subst hk
      simp [setAdd] at h
      subst h
      by_cases h3 : k3 = k
      · subst h3
        simp
      · simp [h3]
    · simp only [setAdd, if_neg hk, Option.map_eq_some'] at h
      obtain ⟨rest2, h1, rfl⟩ := h
      by_cases h3 : k3 = k1
      · subst h3
        have : k3 ≠ k := fun hc => hk (hc ▸ rfl)
        simp [this]
      · simp [h3, ih h1]

theorem addPoints_spec (row : Dict ℚ) : ∀ acc : Dict ℚ,
    (∀ q ∈ row, q.1 ∈ dkeys acc) →
    ∃ acc2, addPoints acc row = some acc2 ∧ dkeys acc2 = dkeys acc ∧
      ∀ k, dget? acc2 k = (dget? acc k).map fun w => w + sumKey row k := by
  induction row with
  | nil =>
    intro acc _
    refine ⟨acc, rfl, rfl, fun k => ?_⟩
    rcases dget? acc k with _ | w <;> simp [sumKey]
  | cons q rest ih =>
    intro acc h
    obtain ⟨acc1, h1⟩ := setAdd_isSome q.2 (h q (List.mem_cons_self q rest))
    obtain ⟨acc2, h2, hkeys, hval⟩ := ih acc1 (fun q2 hq2 => by
      rw [setAdd_dkeys h1]
      exact h q2 (List.mem_cons_of_mem _ hq2))
    refine ⟨acc2, ?_, by rw [hkeys, setAdd_dkeys h1], fun k => ?_⟩
    · simpa [addPoints, h1] using h2
    · rw [hval k, setAdd_dget? h1 k]
      rcases dget? acc k with _ | w
      · simp
      · simp only [Option.map_some', Option.map_map, Function.comp]
        congr 1
        by_cases hk : k = q.1
        · subst hk
          simp [sumKey, add_assoc]
        · have hk2 : ¬(q.1 = k) := fun hc => hk hc.symm
          simp [sumKey, hk, hk2]

theorem accumulateTotals_spec (cp : Dict (Dict ℚ)) : ∀ acc : Dict ℚ,
    (∀ up ∈ cp, ∀ q ∈ up.2, q.1 ∈ dkeys acc) →
    ∃ t, accumulateTotals acc cp = some t ∧ dkeys t = dkeys acc ∧
      ∀ k, dget? t k = (dget? acc k).map fun w => w + colSum cp k := by
  induction cp with
  | nil =>
    intro acc _
    refine ⟨acc, rfl, rfl, fun k => ?_⟩
    rcases dget? acc k with _ | w <;> simp [colSum]
  | cons up rest ih =>
    intro acc h
    obtain ⟨acc1, h1, hk1, hv1⟩ := addPoints_spec up.2 acc (h up (List.mem_cons_self up rest))
    obtain ⟨t, h2, hk2, hv2⟩ := ih acc1 (fun up2 hup2 q hq => by
      rw [hk1]
      exact h up2 (List.mem_cons_of_mem _ hup2) q hq)
    refine ⟨t, ?_, by rw [hk2, hk1], fun k => ?_⟩
    · simpa [accumulateTotals, h1] using h2
    · rw [hv2 k, hv1 k]
      rcases dget? acc k with _ | w
      · simp
      · simp only [Option.map_some', Option.map_map, Function.comp]
        congr 1
        simp [colSum, add_assoc]

theorem computePillarTotals_spec (cfg : Dict PillarConfig) (cp : Dict (Dict ℚ))
    (h : ∀ up ∈ cp, ∀ q ∈ up.2, q.1 ∈ dkeys cfg) :
    ∃ t, computePillarTotals cfg cp = some t ∧ dkeys t = dkeys cfg ∧
      ∀ k, dget? t k = if k ∈ dkeys cfg then some (colSum cp k) else none := by
  have hinit : dkeys (cfg.map fun pc => (pc.1, (0 : ℚ))) = dkeys cfg :=
    dkeys_map_entry (fun _ _ => (0 : ℚ)) cfg
  obtain ⟨t, h1, h2, h3⟩ := accumulateTotals_spec cp _ (by
    intro up hup q hq
    rw [hinit]
    exact h up hup q hq)
  refine ⟨t, h1, by rw [h2, hinit], fun k => ?_⟩
  rw [h3 k, dget?_map_entry (fun _ _ => (0 : ℚ)) cfg k]
  rcases hc : dget? cfg k with _ | c
  · simp [dget?_eq_none_iff.mp hc]
  · have : k ∈ dkeys cfg := dget?_isSome_iff.mp (by rw [hc]; rfl)
    simp [this]

/-! ### Defaulting lookups -/

theorem dgetD_of_some {α : Type} {d : Dict α} {k : String} {w : α} (v : α)
    (h : dget? d k = some w) : dgetD d k v = w := by
  simp [dgetD, h]

theorem dgetD_of_none {α : Type} {d : Dict α} {k : String} (v : α)
    (h : dget? d k = none) : dgetD d k v = v := by
  simp [dgetD, h]

/-! ### Stages 3 and 4 (budget and award) -/

theorem dget?_tokensAllocated (te : ℚ) (cfg : Dict PillarConfig) (p : String) :
    dget? (tokensAllocated te cfg) p =
      (dget? cfg p).map fun c => te * (c.weight * c.emission_pct) :=
  dget?_map_entry (fun (_ : String) (c : PillarConfig) => te * (c.weight * c.emission_pct)) cfg p

theorem dkeys_tokensAllocated (te : ℚ) (cfg : Dict PillarConfig) :
    dkeys (tokensAllocated te cfg) = dkeys cfg :=
  dkeys_map_entry (fun (_ : String) (c : PillarConfig) => te * (c.weight * c.emission_pct)) cfg

theorem awardRow_spec (totals alloc : Dict ℚ) (cd : Dict (Dict Bool)) (user : String)
    (row : Dict ℚ) (h : ∀ q ∈ row, q.1 ∈ dkeys totals ∧ q.1 ∈ dkeys alloc) :
    awardRow totals alloc cd user row =
      some (row.map fun q => (q.1, awardValue totals alloc cd user q.1 q.2)) := by
  induction row with
  | nil => rfl
  | cons q rest ih =>
    obtain ⟨ht, ha⟩ := h q (List.mem_cons_self q rest)
    obtain ⟨tp, htp⟩ := Option.isSome_iff_exists.mp (dget?_isSome_iff.mpr ht)
    obtain ⟨ap, hap⟩ := Option.isSome_iff_exists.mp (dget?_isSome_iff.mpr ha)
    have ihr := ih fun q2 hq2 => h q2 (List.mem_cons_of_mem _ hq2)
    have hshare : (if tp > 0 then qdiv? q.2 tp else some 0) =
        some (if tp > 0 then q.2 / tp else 0) := by
      by_cases h0 : tp > 0
      · simp [h0, qdiv?, (ne_of_gt h0 : tp ≠ 0)]
      · simp [h0]
    simp only [awardRow, htp, hshare, hap, Option.some_bind, ihr, Option.map_some',
      List.map_cons, Option.some.injEq]
    simp [awardValue, dgetD_of_some _ htp, dgetD_of_some _ hap]

theorem awardAll_spec (totals alloc : Dict ℚ) (cd : Dict (Dict Bool)) (cp : Dict (Dict ℚ))
    (h : ∀ up ∈ cp, ∀ q ∈ up.2, q.1 ∈ dkeys totals ∧ q.1 ∈ dkeys alloc) :
    awardAll totals alloc cd cp =
      some (cp.map fun up =>
        (up.1, up.2.map fun q => (q.1, awardValue totals alloc cd up.1 q.1 q.2))) := by
  induction cp with
  | nil => rfl
  | cons up rest ih =>
    rw [awardAll, awardRow_spec totals alloc cd up.1 up.2 (h up (List.mem_cons_self up rest)),
      ih fun up2 hup2 => h up2 (List.mem_cons_of_mem _ hup2)]
    rfl

/-! ### The full run of `process_snapshot` -/

theorem mem_currentPoints_pillar {cfg : Dict PillarConfig} {ro nc : Dict (Dict ℚ)}
    {up : String × Dict ℚ} (hup : up ∈ currentPoints cfg ro nc)
    {q : String × ℚ} (hq : q ∈ up.2) : q.1 ∈ dkeys cfg := by
  rw [currentPoints_eq] at hup
  obtain ⟨u, _, rfl⟩ := List.mem_map.mp hup
  have h2 := List.mem_map_of_mem Prod.fst hq
  rwa [show List.map Prod.fst (pointsRow cfg ro nc u) = dkeys (pointsRow cfg ro nc u) from rfl,
    dkeys_pointsRow] at h2

theorem processSnapshot_run (te : ℚ) (cfg : Dict PillarConfig) (ro nc : Dict (Dict ℚ))
    (cd : Dict (Dict Bool)) :
    ∃ t, computePillarTotals cfg (currentPoints cfg ro nc) = some t ∧
      dkeys t = dkeys cfg ∧
      (∀ k, dget? t k =
        if k ∈ dkeys cfg then some (colSum (currentPoints cfg ro nc) k) else none) ∧
      processSnapshot te cfg ro nc cd = some
        { user_tokens := userTokensOf t (tokensAllocated te cfg) cd (currentPoints cfg ro nc)
          pillar_totals := t
          current_points := currentPoints cfg ro nc
          rollover_points := newRollover cd (currentPoints cfg ro nc) } := by
  obtain ⟨t, h1, h2, h3⟩ := computePillarTotals_spec cfg (currentPoints cfg ro nc)
    fun up hup q hq => mem_currentPoints_pillar hup hq
  refine ⟨t, h1, h2, h3, ?_⟩
  have haward := awardAll_spec t (tokensAllocated te cfg) cd (currentPoints cfg ro nc)
    fun up hup q hq => ⟨h2 ▸ mem_currentPoints_pillar hup hq,
      dkeys_tokensAllocated te cfg ▸ mem_currentPoints_pillar hup hq⟩
  simp only [processSnapshot, h1, Option.some_bind, haward, Option.map_some']
  rfl

/-- Every call of `process_snapshot` succeeds (claim C7 backbone). -/
theorem processSnapshot_isSome (te : ℚ) (cfg : Dict PillarConfig) (ro nc : Dict (Dict ℚ))
    (cd : Dict (Dict Bool)) : (processSnapshot te cfg ro nc cd).isSome := by
  obtain ⟨t, _, _, _, hrun⟩ := processSnapshot_run te cfg ro nc cd
  rw [hrun]
  rfl

theorem dget?_userTokensOf (t alloc : Dict ℚ) (cd : Dict (Dict Bool))
    (cp : Dict (Dict ℚ)) (u : String) :
    dget? (userTokensOf t alloc cd cp) u =
      (dget? cp u).map fun row => row.map fun q => (q.1, awardValue t alloc cd u q.1 q.2) :=
  by
  induction cp with
  | nil => rfl
  | cons up rest ih =>
    obtain ⟨u1, row⟩ := up
    by_cases h : u = u1
    · subst h
      simp [userTokensOf]
    · simp only [userTokensOf, List.map_cons, dget?_cons, if_neg h] at ih ⊢
      exact ih

theorem dkeys_userTokensOf (t alloc : Dict ℚ) (cd : Dict (Dict Bool)) (cp : Dict (Dict ℚ)) :
    dkeys (userTokensOf t alloc cd cp) = dkeys cp := by
  induction cp with
  | nil => rfl
  | cons up rest ih =>
    simp only [userTokensOf, List.map_cons, dkeys_cons] at ih ⊢
    rw [ih]

theorem dget?_newRollover (cd : Dict (Dict Bool)) (cp : Dict (Dict ℚ)) (u : String) :
    dget? (newRollover cd cp) u =
      (dget? cp u).map fun row => row.map fun q =>
        (q.1, if claimGet cd u q.1 then 0 else q.2) :=
  by
  induction cp with
  | nil => rfl
  | cons up rest ih =>
    obtain ⟨u1, row⟩ := up
    by_cases h : u = u1
    · subst h
      simp [newRollover]
    · simp only [newRollover, List.map_cons, dget?_cons, if_neg h] at ih ⊢
      exact ih

theorem dkeys_newRollover (cd : Dict (Dict Bool)) (cp : Dict (Dict ℚ)) :
    dkeys (newRollover cd cp) = dkeys cp := by
  induction cp with
  | nil => rfl
  | cons up rest ih =>
    simp only [newRollover, List.map_cons, dkeys_cons] at ih ⊢
    rw [ih]

/-! ### Concrete runs on the fixtures -/

theorem exRun : processSnapshot 10000 exCfg [] exNc exCd = some exResult := by
  norm_num [processSnapshot, currentPoints, allUsers, dkeys, dget?, dgetD, qdiv?, claimGet,
    setAdd, addPoints, accumulateTotals, computePillarTotals, tokensAllocated, awardRow,
    awardAll, newRollover, List.dedup, exCfg, exNc, exCd, exResult]
  all_goals decide

theorem exRunAll : processSnapshot 10000 exCfg [] exNc exCdAll = some exResultAll := by
  norm_num [processSnapshot, currentPoints, allUsers, dkeys, dget?, dgetD, qdiv?, claimGet,
    setAdd, addPoints, accumulateTotals, computePillarTotals, tokensAllocated, awardRow,
    awardAll, newRollover, List.dedup, exCfg, exNc, exCdAll, exResultAll]
  all_goals decide

theorem exRunNeg : processSnapshot 10000 exCfg [] exNcNeg exCdNeg = some exResultNeg := by
  norm_num [processSnapshot, currentPoints, allUsers, dkeys, dget?, dgetD, qdiv?, claimGet,
    setAdd, addPoints, accumulateTotals, computePillarTotals, tokensAllocated, awardRow,
    awardAll, newRollover, List.dedup, exCfg, exNcNeg, exCdNeg, exResultNeg]

theorem exRunEmpty : processSnapshot 10000 exCfg [] [] [] = some exEmptyResult := by
  norm_num [processSnapshot, currentPoints, allUsers, dkeys, dget?, dgetD, qdiv?, claimGet,
    setAdd, addPoints, accumulateTotals, computePillarTotals, tokensAllocated, awardRow,
    awardAll, newRollover, List.dedup, exCfg, exEmptyResult]

/-! ### Claims -/

/-- C7: `process_snapshot` is total and raises no error for any inputs:
every fallible map access and the guarded division always succeed, so the
run (both the pure function and the stateful method) returns a result. -/
theorem C7_process_snapshot_total (sys : EmissionSystem) (nc : Dict (Dict ℚ))
    (cd : Dict (Dict Bool)) :
    (processSnapshot sys.total_emissions sys.pillar_configs sys.rollover_points nc cd).isSome ∧
    (sys.process nc cd).isSome := by
  obtain ⟨t, _, _, _, hrun⟩ :=
    processSnapshot_run sys.total_emissions sys.pillar_configs sys.rollover_points nc cd
  exact ⟨by rw [hrun]; rfl, by unfold EmissionSystem.process; rw [hrun]; rfl⟩

/-- C1: for every user in the union of prior-rollover and contributing
users and every configured pillar `p` with config `c`, the returned
`user_tokens[user][p]` equals `tokens_allocated[p] * share` when the user
claimed `p` (defaulting to false), and `0` otherwise, where
`tokens_allocated[p] = total_emissions * weight * emission_pct` and
`share = current_points[user][p] / pillar_totals[p]` when
`pillar_totals[p] > 0`, else `0`. -/
theorem C1_user_tokens (te : ℚ) (cfg : Dict PillarConfig) (ro nc : Dict (Dict ℚ))
    (cd : Dict (Dict Bool)) (u p : String) (c : PillarConfig) (r : SnapshotResult)
    (hu : u ∈ dkeys ro ∨ u ∈ dkeys nc) (hp : dget? cfg p = some c)
    (hr : processSnapshot te cfg ro nc cd = some r) :
    dgetD (dgetD r.user_tokens u []) p 0 =
      if claimGet cd u p then
        (te * c.weight * c.emission_pct) *
          (if dgetD r.pillar_totals p 0 > 0 then
            dgetD (dgetD r.current_points u []) p 0 / dgetD r.pillar_totals p 0
          else 0)
      else 0 := by
  obtain ⟨t, ht, hkt, hvt, hrun⟩ := processSnapshot_run te cfg ro nc cd
  rw [hr] at hrun
  obtain rfl : r = _ := Option.some.inj hrun
  have hu2 : u ∈ allUsers ro nc := mem_allUsers.mpr hu
  have hcp : dget? (currentPoints cfg ro nc) u = some (pointsRow cfg ro nc u) := by
    rw [dget?_currentPoints, if_pos hu2]
  have hrowp : dget? (pointsRow cfg ro nc u) p =
      some (dgetD (dgetD ro u []) p 0 + dgetD (dgetD nc u []) p 0) := by
    rw [dget?_pointsRow, hp]
    rfl
  have hup : dgetD (userTokensOf t (tokensAllocated te cfg) cd (currentPoints cfg ro nc)) u []
      = (pointsRow cfg ro nc u).map fun q =>
          (q.1, awardValue t (tokensAllocated te cfg) cd u q.1 q.2) := by
    rw [dgetD, dget?_userTokensOf, hcp]
    rfl
  have hcell : dget? ((pointsRow cfg ro nc u).map fun q =>
      (q.1, awardValue t (tokensAllocated te cfg) cd u q.1 q.2)) p =
      some (awardValue t (tokensAllocated te cfg) cd u p
        (dgetD (dgetD ro u []) p 0 + dgetD (dgetD nc u []) p 0)) := by
    rw [dget?_map_entry (awardValue t (tokensAllocated te cfg) cd u) (pointsRow cfg ro nc u) p,
      hrowp]
    rfl
  have halloc : dgetD (tokensAllocated te cfg) p 0 = te * (c.weight * c.emission_pct) := by
    rw [dgetD, dget?_tokensAllocated, hp]
    rfl
  have hrow : dgetD (currentPoints cfg ro nc) u [] = pointsRow cfg ro nc u := by
    rw [dgetD, hcp]
    rfl
  have hcpv : dgetD (dgetD (currentPoints cfg ro nc) u []) p 0 =
      dgetD (dgetD ro u []) p 0 + dgetD (dgetD nc u []) p 0 := by
    rw [hrow]
    exact dgetD_of_some _ hrowp
  dsimp only
  rw [hup, dgetD_of_some _ hcell, hcpv, awardValue, halloc,
    ← mul_assoc te c.weight c.emission_pct]

/-- Witness for C1 on the worked example: user A claims and receives
`2500 * (100/400) = 625` tokens. -/
theorem C1_user_tokens_witness :
    dgetD (dgetD exResult.user_tokens "A" []) "P" 0 = 625 := by
  have h := C1_user_tokens 10000 exCfg [] exNc exCd "A" "P" ⟨1, 1/4⟩ exResult
    (Or.inr (by decide)) rfl exRun
  rw [h]
  norm_num [claimGet, dgetD, dget?, exCd, exResult]

/-- C2: after any call, the new rollover state has
`rollover_points[user][pillar] = 0` when that user/pillar was claimed,
and the full merged `current_points[user][pillar]` otherwise, for every
user in the union and every configured pillar. -/
theorem C2_rollover_correctness (sys : EmissionSystem) (nc : Dict (Dict ℚ))
    (cd : Dict (Dict Bool)) (u p : String) (r : SnapshotResult) (sys2 : EmissionSystem)
    (hu : u ∈ dkeys sys.rollover_points ∨ u ∈ dkeys nc)
    (hp : p ∈ dkeys sys.pillar_configs)
    (hr : sys.process nc cd = some (r, sys2)) :
    dgetD (dgetD sys2.rollover_points u []) p 0 =
      if claimGet cd u p then 0 else dgetD (dgetD r.current_points u []) p 0 := by
  unfold EmissionSystem.process at hr
  rw [Option.map_eq_some'] at hr
  obtain ⟨r0, hr0, heq⟩ := hr
  have hre : r = r0 := (congrArg Prod.fst heq).symm
  subst hre
  have hse : sys2 = { sys with rollover_points := r.rollover_points } :=
    (congrArg Prod.snd heq).symm
  subst hse
  obtain ⟨t, ht, hkt, hvt, hrun⟩ :=
    processSnapshot_run sys.total_emissions sys.pillar_configs sys.rollover_points nc cd
  rw [hr0] at hrun
  obtain rfl : r = _ := Option.some.inj hrun
  have hu2 : u ∈ allUsers sys.rollover_points nc := mem_allUsers.mpr hu
  obtain ⟨c, hc⟩ := Option.isSome_iff_exists.mp (dget?_isSome_iff.mpr hp)
  have hcp : dget? (currentPoints sys.pillar_configs sys.rollover_points nc) u =
      some (pointsRow sys.pillar_configs sys.rollover_points nc u) := by
    rw [dget?_currentPoints, if_pos hu2]
  have hrowp : dget? (pointsRow sys.pillar_configs sys.rollover_points nc u) p =
      some (dgetD (dgetD sys.rollover_points u []) p 0 + dgetD (dgetD nc u []) p 0) := by
    rw [dget?_pointsRow, hc]
    rfl
  dsimp only
  have hnr : dgetD (newRollover cd (currentPoints sys.pillar_configs sys.rollover_points nc)) u []
      = (pointsRow sys.pillar_configs sys.rollover_points nc u).map fun q =>
          (q.1, if claimGet cd u q.1 then 0 else q.2) := by
    rw [dgetD, dget?_newRollover, hcp]
    rfl
  have hrow : dgetD (currentPoints sys.pillar_configs sys.rollover_points nc) u [] =
      pointsRow sys.pillar_configs sys.rollover_points nc u := by
    rw [dgetD, hcp]
    rfl
  rw [hnr, dgetD, dget?_map_fst
    (fun q : String × ℚ => (q.1, if claimGet cd u q.1 then (0 : ℚ) else q.2)) _
    (fun e => rfl) p, hrowp, hrow, dgetD_of_some _ hrowp]
  dsimp only [Option.map_some', Option.getD_some]

/-- Witness for C2: user B does not claim, so B carries the full 300
points forward; the engine state after the call holds that rollover. -/
theorem C2_rollover_correctness_witness :
    dgetD (dgetD ([("A", [("P", 0)]), ("B", [("P", 300)])] : Dict (Dict ℚ)) "B" []) "P" 0
      = 300 := by
  have h := C2_rollover_correctness ⟨10000, exCfg, []⟩ exNc exCd "B" "P" exResult
    ⟨10000, exCfg, [("A", [("P", 0)]), ("B", [("P", 300)])]⟩
    (Or.inr (by decide)) (by decide)
    (by unfold EmissionSystem.process; rw [show processSnapshot 10000 exCfg [] exNc exCd
      = some exResult from exRun]; rfl)
  rw [show dgetD (dgetD ([("A", [("P", 0)]), ("B", [("P", 300)])] : Dict (Dict ℚ)) "B" []) "P" 0
    = dgetD (dgetD (EmissionSystem.mk 10000 exCfg
        [("A", [("P", 0)]), ("B", [("P", 300)])]).rollover_points "B" []) "P" 0 from rfl, h]
  norm_num [claimGet, dgetD, dget?, exCd, exResult]

/-- C3: `current_points` is keyed exactly by the union of prior-rollover
users and contributing users; each configured pillar's value is prior
rollover plus new contribution (0 when absent); unconfigured pillars get
no entry, so contributions to them are ignored. -/
theorem C3_current_points_merge (te : ℚ) (cfg : Dict PillarConfig) (ro nc : Dict (Dict ℚ))
    (cd : Dict (Dict Bool)) (r : SnapshotResult)
    (hr : processSnapshot te cfg ro nc cd = some r) :
    (∀ u, u ∈ dkeys r.current_points ↔ (u ∈ dkeys ro ∨ u ∈ dkeys nc)) ∧
    (∀ u p, (u ∈ dkeys ro ∨ u ∈ dkeys nc) → p ∈ dkeys cfg →
      dgetD (dgetD r.current_points u []) p 0 =
        dgetD (dgetD ro u []) p 0 + dgetD (dgetD nc u []) p 0) ∧
    (∀ u p, p ∉ dkeys cfg → dget? (dgetD r.current_points u []) p = none) := by
  obtain ⟨t, ht, hkt, hvt, hrun⟩ := processSnapshot_run te cfg ro nc cd
  rw [hr] at hrun
  obtain rfl : r = _ := Option.some.inj hrun
  dsimp only
  refine ⟨fun u => ?_, fun u p hu hp => ?_, fun u p hp => ?_⟩
  · rw [dkeys_currentPoints]
    exact mem_allUsers
  · have hu2 : u ∈ allUsers ro nc := mem_allUsers.mpr hu
    obtain ⟨c, hc⟩ := Option.isSome_iff_exists.mp (dget?_isSome_iff.mpr hp)
    have hcp : dget? (currentPoints cfg ro nc) u = some (pointsRow cfg ro nc u) := by
      rw [dget?_currentPoints, if_pos hu2]
    have hrowp : dget? (pointsRow cfg ro nc u) p =
        some (dgetD (dgetD ro u []) p 0 + dgetD (dgetD nc u []) p 0) := by
      rw [dget?_pointsRow, hc]
      rfl
    have hrow : dgetD (currentPoints cfg ro nc) u [] = pointsRow cfg ro nc u := by
      rw [dgetD, hcp]
      rfl
    rw [hrow]
    exact dgetD_of_some _ hrowp
  · rcases hgu : dget? (currentPoints cfg ro nc) u with _ | row
    · rw [dgetD_of_none _ hgu]
      rfl
    · rw [dgetD_of_some _ hgu]
      rw [dget?_currentPoints] at hgu
      by_cases hmem : u ∈ allUsers ro nc
      · rw [if_pos hmem] at hgu
        injection hgu with hgu2
        subst hgu2
        rw [dget?_eq_none_iff, dkeys_pointsRow]
        exact hp
      · rw [if_neg hmem] at hgu
        cases hgu

/-- Witness for C3 on the worked example: user A is a key, A's merged
points in pillar P are `0 + 100`, and an unconfigured pillar Q has no
entry. -/
theorem C3_current_points_merge_witness :
    ("A" ∈ dkeys exResult.current_points) ∧
    dgetD (dgetD exResult.current_points "A" []) "P" 0 =
      dgetD (dgetD ([] : Dict (Dict ℚ)) "A" []) "P" 0 + dgetD (dgetD exNc "A" []) "P" 0 ∧
    dget? (dgetD exResult.current_points "A" []) "Q" = none := by
  have h := C3_current_points_merge 10000 exCfg [] exNc exCd exResult exRun
  exact ⟨(h.1 "A").mpr (Or.inr (by decide)),
    h.2.1 "A" "P" (Or.inr (by decide)) (by decide),
    h.2.2 "A" "Q" (by decide)⟩

/-- C10: because the share guard tests `pillar_totals[pillar] > 0`,
whenever the pillar total is nonpositive (including negative totals from
negative contributions) every user's token for that pillar is 0,
regardless of claim decisions. -/
theorem C10_nonpositive_total_zero_tokens (te : ℚ) (cfg : Dict PillarConfig)
    (ro nc : Dict (Dict ℚ)) (cd : Dict (Dict Bool)) (u p : String) (r : SnapshotResult)
    (hr : processSnapshot te cfg ro nc cd = some r)
    (hT : dgetD r.pillar_totals p 0 ≤ 0) :
    dgetD (dgetD r.user_tokens u []) p 0 = 0 := by
  obtain ⟨t, ht, hkt, hvt, hrun⟩ := processSnapshot_run te cfg ro nc cd
  rw [hr] at hrun
  obtain rfl : r = _ := Option.some.inj hrun
  dsimp only at hT ⊢
  rcases hgu : dget? (userTokensOf t (tokensAllocated te cfg) cd (currentPoints cfg ro nc)) u
    with _ | row
  · rw [dgetD_of_none _ hgu]
    rfl
  · rw [dgetD_of_some _ hgu]
    rw [dget?_userTokensOf] at hgu
    obtain ⟨row0, _, rfl⟩ := Option.map_eq_some'.mp hgu
    rw [dgetD, dget?_map_fst
      (fun q : String × ℚ => (q.1, awardValue t (tokensAllocated te cfg) cd u q.1 q.2)) _
      (fun e => rfl) p]
    rcases dget? row0 p with _ | v
    · rfl
    · dsimp only [Option.map_some', Option.getD_some]
      rw [awardValue, if_neg (not_lt.mpr hT), mul_zero, ite_self]

/-- Witness for C10: a negative contribution of -5 makes the pillar total
-5, so the claiming user still gets 0 tokens. -/
theorem C10_nonpositive_total_zero_tokens_witness :
    dgetD (dgetD exResultNeg.user_tokens "A" []) "P" 0 = 0 :=
  C10_nonpositive_total_zero_tokens 10000 exCfg [] exNcNeg exCdNeg "A" "P" exResultNeg
    exRunNeg (by norm_num [dgetD, dget?, exResultNeg])

/-- C8: a user absent from both the prior rollover state and the new
contributions has no influence through `claim_decisions`: any two claim
maps that agree on all other users yield identical results, and such a
user gets no row and a zero default payout. -/
theorem C8_claim_noninterference (te : ℚ) (cfg : Dict PillarConfig) (ro nc : Dict (Dict ℚ))
    (cd cd2 : Dict (Dict Bool)) (u0 : String)
    (h1 : u0 ∉ dkeys ro) (h2 : u0 ∉ dkeys nc)
    (hagree : ∀ u, u ≠ u0 → ∀ p, claimGet cd u p = claimGet cd2 u p) :
    processSnapshot te cfg ro nc cd = processSnapshot te cfg ro nc cd2 ∧
    ∀ r, processSnapshot te cfg ro nc cd = some r →
      u0 ∉ dkeys r.user_tokens ∧ ∀ p, dgetD (dgetD r.user_tokens u0 []) p 0 = 0 := by
  have hu0 : u0 ∉ allUsers ro nc := fun hc => (mem_allUsers.mp hc).elim h1 h2
  obtain ⟨t, ht, hkt, hvt, hrun⟩ := processSnapshot_run te cfg ro nc cd
  obtain ⟨t2, ht2, hkt2, hvt2, hrun2⟩ := processSnapshot_run te cfg ro nc cd2
  rw [ht] at ht2
  obtain rfl : t = t2 := Option.some.inj ht2
  have hmem : ∀ up ∈ currentPoints cfg ro nc, up.1 ≠ u0 := by
    intro up hup hequ
    refine hu0 ?_
    rw [← hequ, ← dkeys_currentPoints cfg ro nc]
    exact List.mem_map_of_mem Prod.fst hup
  have hut : userTokensOf t (tokensAllocated te cfg) cd (currentPoints cfg ro nc) =
      userTokensOf t (tokensAllocated te cfg) cd2 (currentPoints cfg ro nc) := by
    unfold userTokensOf
    refine List.map_congr_left fun up hup => ?_
    have hagr := hagree up.1 (hmem up hup)
    congr 1
    refine List.map_congr_left fun q _ => ?_
    unfold awardValue
    rw [hagr q.1]
  have hnr : newRollover cd (currentPoints cfg ro nc) =
      newRollover cd2 (currentPoints cfg ro nc) := by
    unfold newRollover
    refine List.map_congr_left fun up hup => ?_
    have hagr := hagree up.1 (hmem up hup)
    congr 1
    refine List.map_congr_left fun q _ => ?_
    rw [hagr q.1]
  refine ⟨by rw [hrun, hrun2, hut, hnr], fun r hrr => ?_⟩
  rw [hrun] at hrr
  obtain rfl : r = _ := (Option.some.inj hrr).symm
  dsimp only
  have hku : u0 ∉ dkeys (userTokensOf t (tokensAllocated te cfg) cd (currentPoints cfg ro nc)) := by
    rw [dkeys_userTokensOf, dkeys_currentPoints]
    exact hu0
  refine ⟨hku, fun p => ?_⟩
  rw [dgetD_of_none _ (dget?_eq_none_iff.mpr hku)]
  rfl

/-- Witness for C8: adding a claim row for the non-contributing user Z
changes nothing, and Z's payout defaults to 0. -/
theorem C8_claim_noninterference_witness :
    processSnapshot 10000 exCfg [] exNc exCd = processSnapshot 10000 exCfg [] exNc exCdZ ∧
    dgetD (dgetD exResult.user_tokens "Z" []) "P" 0 = 0 := by
  have h := C8_claim_noninterference 10000 exCfg [] exNc exCd exCdZ "Z"
    (by decide) (by decide)
    (fun u hu p => by simp [exCdZ, claimGet, dgetD, dget?, hu])
  exact ⟨h.1, (h.2 exResult exRun).2 "P"⟩

/-- C9: the result mappings have a fixed key shape: the three per-user
mappings are keyed exactly by the union of prior and contributing users,
every inner mapping is keyed exactly by the configured pillar list, and
`pillar_totals` has an entry for exactly every configured pillar. -/
theorem C9_result_shape (te : ℚ) (cfg : Dict PillarConfig) (ro nc : Dict (Dict ℚ))
    (cd : Dict (Dict Bool)) (r : SnapshotResult)
    (hr : processSnapshot te cfg ro nc cd = some r) :
    dkeys r.current_points = allUsers ro nc ∧
    dkeys r.user_tokens = allUsers ro nc ∧
    dkeys r.rollover_points = allUsers ro nc ∧
    (∀ u, u ∈ allUsers ro nc ↔ (u ∈ dkeys ro ∨ u ∈ dkeys nc)) ∧
    (∀ up ∈ r.current_points, dkeys up.2 = dkeys cfg) ∧
    (∀ up ∈ r.user_tokens, dkeys up.2 = dkeys cfg) ∧
    (∀ up ∈ r.rollover_points, dkeys up.2 = dkeys cfg) ∧
    dkeys r.pillar_totals = dkeys cfg := by
  obtain ⟨t, ht, hkt, hvt, hrun⟩ := processSnapshot_run te cfg ro nc cd
  rw [hr] at hrun
  obtain rfl : r = _ := Option.some.inj hrun
  dsimp only
  have hcpshape : ∀ up ∈ currentPoints cfg ro nc, dkeys up.2 = dkeys cfg := by
    intro up hup
    rw [currentPoints_eq] at hup
    obtain ⟨u, _, rfl⟩ := List.mem_map.mp hup
    exact dkeys_pointsRow cfg ro nc u
  refine ⟨dkeys_currentPoints cfg ro nc, ?_, ?_, fun u => mem_allUsers, hcpshape, ?_, ?_, hkt⟩
  · rw [dkeys_userTokensOf, dkeys_currentPoints]
  · rw [dkeys_newRollover, dkeys_currentPoints]
  · intro up hup
    unfold userTokensOf at hup
    obtain ⟨up0, hup0, rfl⟩ := List.mem_map.mp hup
    dsimp only
    have hk := dkeys_map_fst
      (fun q : String × ℚ => (q.1, awardValue t (tokensAllocated te cfg) cd up0.1 q.1 q.2))
      up0.2 fun e => rfl
    rw [hk]
    exact hcpshape up0 hup0
  · intro up hup
    unfold newRollover at hup
    obtain ⟨up0, hup0, rfl⟩ := List.mem_map.mp hup
    dsimp only
    have hk := dkeys_map_fst
      (fun q : String × ℚ => (q.1, if claimGet cd up0.1 q.1 then (0 : ℚ) else q.2))
      up0.2 fun e => rfl
    rw [hk]
    exact hcpshape up0 hup0

/-- Witness for C9 on the worked example: the key shape of every
returned mapping. -/
theorem C9_result_shape_witness :
    dkeys exResult.current_points = allUsers [] exNc ∧
    dkeys exResult.user_tokens = allUsers [] exNc ∧
    dkeys exResult.rollover_points = allUsers [] exNc ∧
    dkeys exResult.pillar_totals = dkeys exCfg := by
  have h := C9_result_shape 10000 exCfg [] exNc exCd exResult exRun
  exact ⟨h.1, h.2.1, h.2.2.1, h.2.2.2.2.2.2.2⟩

/-! ### Non-negativity helpers -/

theorem dgetD2_nonneg {d : Dict (Dict ℚ)} (hd : ∀ up ∈ d, ∀ q ∈ up.2, 0 ≤ q.2)
    (u p : String) : 0 ≤ dgetD (dgetD d u []) p 0 := by
  rcases hu : dget? d u with _ | row
  · rw [dgetD_of_none _ hu]
    simp [dgetD, dget?]
  · rw [dgetD_of_some _ hu]
    rcases hp : dget? row p with _ | v
    · simp [dgetD_of_none _ hp]
    · rw [dgetD_of_some _ hp]
      exact hd _ (mem_of_dget? hu) _ (mem_of_dget? hp)

theorem sumKey_nonneg {pts : Dict ℚ} (h : ∀ q ∈ pts, 0 ≤ q.2) (k : String) :
    0 ≤ sumKey pts k := by
  refine List.sum_nonneg ?_
  intro x hx
  obtain ⟨q, hq, rfl⟩ := List.mem_map.mp hx
  exact h q (List.mem_filter.mp hq).1

theorem colSum_nonneg {cp : Dict (Dict ℚ)} (h : ∀ up ∈ cp, ∀ q ∈ up.2, 0 ≤ q.2)
    (k : String) : 0 ≤ colSum cp k := by
  refine List.sum_nonneg ?_
  intro x hx
  obtain ⟨up, hup, rfl⟩ := List.mem_map.mp hx
  exact sumKey_nonneg (h up hup) k

theorem tokensAllocated_nonneg {te : ℚ} {cfg : Dict PillarConfig} (hte : 0 ≤ te)
    (hw : ∀ pc ∈ cfg, 0 ≤ pc.2.weight ∧ 0 ≤ pc.2.emission_pct ∧ pc.2.emission_pct ≤ 1)
    (p : String) : 0 ≤ dgetD (tokensAllocated te cfg) p 0 := by
  rcases h : dget? (tokensAllocated te cfg) p with _ | a
  · simp [dgetD_of_none _ h]
  · rw [dgetD_of_some _ h]
    rw [dget?_tokensAllocated] at h
    obtain ⟨c, hc, rfl⟩ := Option.map_eq_some'.mp h
    have hm := hw _ (mem_of_dget? hc)
    exact mul_nonneg hte (mul_nonneg hm.1 hm.2.1)

theorem totals_entry_eq {cfg : Dict PillarConfig} {cp : Dict (Dict ℚ)} {t : Dict ℚ}
    (hcfg : (dkeys cfg).Nodup) (hkt : dkeys t = dkeys cfg)
    (hvt : ∀ k, dget? t k = if k ∈ dkeys cfg then some (colSum cp k) else none)
    {k : String} {w : ℚ} (hm : (k, w) ∈ t) : w = colSum cp k := by
  have hnd : (dkeys t).Nodup := hkt ▸ hcfg
  have h0 := dget?_of_mem_nodup hnd hm
  rw [hvt k] at h0
  by_cases hk : k ∈ dkeys cfg
  · rw [if_pos hk] at h0
    exact (Option.some.inj h0).symm
  · rw [if_neg hk] at h0
    cases h0

/-- C5: with non-negative rollover state, contributions, budget, weights
and emission percentages in [0,1], every value in `pillar_totals`,
`user_tokens` and the new `rollover_points` is non-negative; the
rollover clause is exactly preservation of the non-negativity invariant
across a call. -/
theorem C5_nonnegativity (te : ℚ) (cfg : Dict PillarConfig) (ro nc : Dict (Dict ℚ))
    (cd : Dict (Dict Bool)) (r : SnapshotResult)
    (hcfg : (dkeys cfg).Nodup)
    (hte : 0 ≤ te)
    (hw : ∀ pc ∈ cfg, 0 ≤ pc.2.weight ∧ 0 ≤ pc.2.emission_pct ∧ pc.2.emission_pct ≤ 1)
    (hro : ∀ up ∈ ro, ∀ q ∈ up.2, 0 ≤ q.2)
    (hnc : ∀ up ∈ nc, ∀ q ∈ up.2, 0 ≤ q.2)
    (hr : processSnapshot te cfg ro nc cd = some r) :
    (∀ q ∈ r.pillar_totals, 0 ≤ q.2) ∧
    (∀ up ∈ r.user_tokens, ∀ q ∈ up.2, 0 ≤ q.2) ∧
    (∀ up ∈ r.rollover_points, ∀ q ∈ up.2, 0 ≤ q.2) := by
  obtain ⟨t, ht, hkt, hvt, hrun⟩ := processSnapshot_run te cfg ro nc cd
  rw [hr] at hrun
  obtain rfl : r = _ := Option.some.inj hrun
  dsimp only
  have hcpn : ∀ up ∈ currentPoints cfg ro nc, ∀ q ∈ up.2, 0 ≤ q.2 := by
    intro up hup q hq
    rw [currentPoints_eq] at hup
    obtain ⟨u, _, rfl⟩ := List.mem_map.mp hup
    dsimp only at hq
    unfold pointsRow at hq
    obtain ⟨pc, _, rfl⟩ := List.mem_map.mp hq
    exact add_nonneg (dgetD2_nonneg hro u pc.1) (dgetD2_nonneg hnc u pc.1)
  refine ⟨?_, ?_, ?_⟩
  · rintro ⟨k, w⟩ hm
    have hweq := totals_entry_eq hcfg hkt hvt hm
    dsimp only
    rw [hweq]
    exact colSum_nonneg hcpn k
  · intro up hup q hq
    unfold userTokensOf at hup
    obtain ⟨up0, hup0, rfl⟩ := List.mem_map.mp hup
    dsimp only at hq
    obtain ⟨q0, hq0, rfl⟩ := List.mem_map.mp hq
    dsimp only
    unfold awardValue
    split
    · refine mul_nonneg (tokensAllocated_nonneg hte hw q0.1) ?_
      split
      · rename_i hpos
        exact div_nonneg (hcpn up0 hup0 q0 hq0) hpos.le
      · exact le_refl 0
    · exact le_refl 0
  · intro up hup q hq
    unfold newRollover at hup
    obtain ⟨up0, hup0, rfl⟩ := List.mem_map.mp hup
    dsimp only at hq
    obtain ⟨q0, hq0, rfl⟩ := List.mem_map.mp hq
    dsimp only
    split
    · exact le_refl 0
    · exact hcpn up0 hup0 q0 hq0

/-- Witness for C5 on the worked example: the pillar total, a claimed
payout and a carried rollover are all non-negative. -/
theorem C5_nonnegativity_witness :
    ((0 : ℚ) ≤ 400 ∧ (0 : ℚ) ≤ 625 ∧ (0 : ℚ) ≤ 300) := by
  have h := C5_nonnegativity 10000 exCfg [] exNc exCd exResult
    (by decide) (by norm_num)
    (by
      intro pc hpc
      simp only [exCfg, List.mem_singleton] at hpc
      subst hpc
      refine ⟨by norm_num, by norm_num, by norm_num⟩)
    (by intro up hup; cases hup)
    (by
      intro up hup q hq
      simp only [exNc, List.mem_cons, List.not_mem_nil, or_false] at hup
      rcases hup with rfl | rfl <;>
        simp only [List.mem_cons, List.not_mem_nil, or_false] at hq <;>
          subst hq <;> norm_num)
    exRun
  refine ⟨h.1 ("P", 400) (by simp [exResult]), ?_, ?_⟩
  · exact h.2.1 ("A", [("P", 625)]) (by simp [exResult]) ("P", 625) (by simp)
  · exact h.2.2 ("B", [("P", 300)]) (by simp [exResult]) ("P", 300) (by simp)

/-! ### Sum lemmas for conservation -/

theorem sumKey_eq_zero_of_not_mem {pts : Dict ℚ} {k : String} (h : k ∉ dkeys pts) :
    sumKey pts k = 0 := by
  unfold sumKey
  have hf : pts.filter (fun q => q.1 = k) = [] := by
    rw [List.filter_eq_nil_iff]
    intro q hq
    simp only [decide_eq_true_eq]
    intro hk
    exact h (hk ▸ List.mem_map_of_mem Prod.fst hq)
  rw [hf]
  rfl

theorem sumKey_eq_dgetD {pts : Dict ℚ} (hnd : (dkeys pts).Nodup) (k : String) :
    sumKey pts k = dgetD pts k 0 := by
  induction pts with
  | nil => rfl
  | cons q rest ih =>
    obtain ⟨k1, v⟩ := q
    simp only [dkeys_cons, List.nodup_cons] at hnd
    by_cases h : k1 = k
    · subst h
      have hz : sumKey rest k1 = 0 := sumKey_eq_zero_of_not_mem hnd.1
      rw [show sumKey ((k1, v) :: rest) k1 = v + sumKey rest k1 from by simp [sumKey],
        hz, add_zero]
      simp [dgetD, dget?]
    · have h2 : ¬(k = k1) := fun hc => h hc.symm
      rw [show sumKey ((k1, v) :: rest) k = sumKey rest k from by simp [sumKey, h]]
      rw [show dgetD ((k1, v) :: rest) k 0 = dgetD rest k 0 from by simp [dgetD, dget?, h2]]
      exact ih hnd.2

theorem colSum_currentPoints {cfg : Dict PillarConfig} (ro nc : Dict (Dict ℚ))
    (hcfg : (dkeys cfg).Nodup) (p : String) :
    colSum (currentPoints cfg ro nc) p =
      ((allUsers ro nc).map fun u => dgetD (pointsRow cfg ro nc u) p 0).sum := by
  unfold colSum
  rw [currentPoints_eq, List.map_map]
  congr 1
  refine List.map_congr_left fun u _ => ?_
  dsimp only [Function.comp]
  exact sumKey_eq_dgetD (by rw [dkeys_pointsRow]; exact hcfg) p

theorem userSumAt_userTokensOf (t alloc : Dict ℚ) (cd : Dict (Dict Bool))
    (cfg : Dict PillarConfig) (ro nc : Dict (Dict ℚ)) (p : String) (hp : p ∈ dkeys cfg) :
    userSumAt (userTokensOf t alloc cd (currentPoints cfg ro nc)) p =
      ((allUsers ro nc).map fun u =>
        awardValue t alloc cd u p (dgetD (pointsRow cfg ro nc u) p 0)).sum := by
  unfold userSumAt userTokensOf
  rw [currentPoints_eq, List.map_map, List.map_map]
  congr 1
  refine List.map_congr_left fun u _ => ?_
  dsimp only [Function.comp]
  have hmem : p ∈ dkeys (pointsRow cfg ro nc u) := by
    rw [dkeys_pointsRow]
    exact hp
  obtain ⟨v, hv⟩ := Option.isSome_iff_exists.mp (dget?_isSome_iff.mpr hmem)
  rw [dgetD, dget?_map_fst
    (fun q : String × ℚ => (q.1, awardValue t alloc cd u q.1 q.2)) _ (fun e => rfl) p, hv]
  dsimp only [Option.map_some', Option.getD_some]
  rw [dgetD_of_some _ hv]

/-- C4, amended: for a configured pillar whose total is positive, if
every user with nonzero merged points for that pillar claims it, the
awarded tokens sum exactly to the pillar's allocated budget. -/
theorem C4_conservation (te : ℚ) (cfg : Dict PillarConfig) (ro nc : Dict (Dict ℚ))
    (cd : Dict (Dict Bool)) (p : String) (c : PillarConfig) (r : SnapshotResult)
    (hcfg : (dkeys cfg).Nodup)
    (hp : dget? cfg p = some c)
    (hr : processSnapshot te cfg ro nc cd = some r)
    (hpos : dgetD r.pillar_totals p 0 > 0)
    (hclaim : ∀ up ∈ r.current_points, dgetD up.2 p 0 ≠ 0 → claimGet cd up.1 p = true) :
    userSumAt r.user_tokens p = te * c.weight * c.emission_pct := by
  obtain ⟨t, ht, hkt, hvt, hrun⟩ := processSnapshot_run te cfg ro nc cd
  rw [hr] at hrun
  obtain rfl : r = _ := Option.some.inj hrun
  dsimp only at hpos hclaim ⊢
  have hpmem : p ∈ dkeys cfg := dget?_isSome_iff.mp (by rw [hp]; rfl)
  have halloc : dgetD (tokensAllocated te cfg) p 0 = te * (c.weight * c.emission_pct) := by
    rw [dgetD, dget?_tokensAllocated, hp]
    rfl
  have hTname : dget? t p = some (colSum (currentPoints cfg ro nc) p) := by
    rw [hvt p, if_pos hpmem]
  have hT : dgetD t p 0 = colSum (currentPoints cfg ro nc) p := dgetD_of_some _ hTname
  rw [userSumAt_userTokensOf t (tokensAllocated te cfg) cd cfg ro nc p hpmem]
  have hterm : ∀ u ∈ allUsers ro nc,
      awardValue t (tokensAllocated te cfg) cd u p (dgetD (pointsRow cfg ro nc u) p 0) =
        (dgetD (tokensAllocated te cfg) p 0 / dgetD t p 0) *
          dgetD (pointsRow cfg ro nc u) p 0 := by
    intro u hu
    unfold awardValue
    rw [if_pos hpos]
    by_cases hcl : claimGet cd u p
    · rw [if_pos hcl]
      rw [div_mul_eq_mul_div, mul_div_assoc]
    · rw [if_neg hcl]
      have hup : (u, pointsRow cfg ro nc u) ∈ currentPoints cfg ro nc := by
        rw [currentPoints_eq]
        exact List.mem_map_of_mem _ hu
      have hz : dgetD (pointsRow cfg ro nc u) p 0 = 0 := by
        by_contra hnz
        exact hcl (hclaim _ hup hnz)
      rw [hz, mul_zero]
  rw [List.map_congr_left hterm, List.sum_map_mul_left, ← colSum_currentPoints ro nc hcfg p,
    ← hT, div_mul_cancel₀ _ (ne_of_gt hpos), halloc, ← mul_assoc]

/-- Counterexample to C4 as stated: with no users at all the claim
hypothesis holds vacuously, yet the awarded sum is 0 while the allocated
budget is 2500. -/
theorem C4_conservation_counterexample :
    processSnapshot 10000 exCfg [] [] [] = some exEmptyResult ∧
    (∀ up ∈ exEmptyResult.current_points, dgetD up.2 "P" 0 ≠ 0 →
      claimGet [] up.1 "P" = true) ∧
    userSumAt exEmptyResult.user_tokens "P" ≠
      dgetD (tokensAllocated 10000 exCfg) "P" 0 := by
  refine ⟨exRunEmpty, ?_, ?_⟩
  · intro up hup
    simp [exEmptyResult] at hup
  · norm_num [userSumAt, exEmptyResult, tokensAllocated, exCfg, dgetD, dget?]

/-- Witness for the amended C4: both users claim, and 625 + 1875 equals
the full allocation 2500 = 10000 * 1 * (1/4). -/
theorem C4_conservation_witness :
    userSumAt exResultAll.user_tokens "P" = 10000 * 1 * (1 / 4) := by
  have h := C4_conservation 10000 exCfg [] exNc exCdAll "P" ⟨1, 1/4⟩ exResultAll
    (by decide) rfl exRunAll
    (by norm_num [dgetD, dget?, exResultAll])
    (by
      intro up hup hne
      simp only [exResultAll, List.mem_cons, List.not_mem_nil, or_false] at hup
      rcases hup with rfl | rfl <;> decide)
  exact h

/-! ### Zero-input idempotence -/

/-- Every reachable rollover state has the canonical shape: duplicate-free
user keys and inner mappings keyed exactly by the configured pillars. -/
theorem reachable_shape {te : ℚ} {cfg : Dict PillarConfig} {ro : Dict (Dict ℚ)}
    (h : Reachable te cfg ro) :
    (dkeys ro).Nodup ∧ ∀ up ∈ ro, dkeys up.2 = dkeys cfg := by
  induction h with
  | start => exact ⟨List.nodup_nil, fun up hup => absurd hup (List.not_mem_nil up)⟩
  | step ro nc cd r hre hr ih =>
    obtain ⟨t, ht, hkt, hvt, hrun⟩ := processSnapshot_run te cfg ro nc cd
    rw [hr] at hrun
    obtain rfl : r = _ := Option.some.inj hrun
    dsimp only
    constructor
    · rw [dkeys_newRollover, dkeys_currentPoints]
      exact nodup_allUsers ro nc
    · intro up hup
      unfold newRollover at hup
      obtain ⟨up0, hup0, rfl⟩ := List.mem_map.mp hup
      dsimp only
      have hk := dkeys_map_fst
        (fun q : String × ℚ => (q.1, if claimGet cd up0.1 q.1 then (0 : ℚ) else q.2))
        up0.2 fun e => rfl
      rw [hk]
      rw [currentPoints_eq] at hup0
      obtain ⟨u, _, rfl⟩ := List.mem_map.mp hup0
      exact dkeys_pointsRow cfg ro nc u

/-- Reading back a row keyed exactly like the configuration rebuilds it. -/
theorem row_rebuild {cfg : Dict PillarConfig} : ∀ {pts : Dict ℚ},
    dkeys pts = dkeys cfg → (dkeys cfg).Nodup →
    (cfg.map fun pc => (pc.1, dgetD pts pc.1 0)) = pts := by
  induction cfg with
  | nil =>
    intro pts hk _
    cases pts with
    | nil => rfl
    | cons q qrest => simp [dkeys] at hk
  | cons pc rest ih =>
    intro pts hk hnd
    cases pts with
    | nil => simp [dkeys] at hk
    | cons q qrest =>
      obtain ⟨qk, qv⟩ := q
      simp only [dkeys_cons] at hk
      injection hk with hk1 hk2
      simp only [dkeys_cons, List.nodup_cons] at hnd
      simp only [List.map_cons]
      congr 1
      · rw [show dgetD ((qk, qv) :: qrest) pc.1 0 = qv from by simp [dgetD, dget?, hk1],
          ← hk1]
      · have hstep : ∀ pc2 ∈ rest,
            (pc2.1, dgetD ((qk, qv) :: qrest) pc2.1 0) =
              (pc2.1, dgetD qrest pc2.1 0) := by
          intro pc2 hm
          have hne : ¬(pc2.1 = qk) := by
            intro hc
            apply hnd.1
            have hmm : pc2.1 ∈ dkeys rest := List.mem_map_of_mem Prod.fst hm
            rw [hc, hk1] at hmm
            exact hmm
          simp [dgetD, dget?, hne]
        rw [List.map_congr_left hstep]
        exact ih hk2 hnd.2

/-- Reading back a whole canonical rollover state rebuilds it. -/
theorem state_rebuild {cfg : Dict PillarConfig} : ∀ {ro : Dict (Dict ℚ)},
    (dkeys ro).Nodup → (∀ up ∈ ro, dkeys up.2 = dkeys cfg) → (dkeys cfg).Nodup →
    ((dkeys ro).map fun u =>
      (u, cfg.map fun pc => (pc.1, dgetD (dgetD ro u []) pc.1 0))) = ro := by
  intro ro
  induction ro with
  | nil => intro _ _ _; rfl
  | cons e rest ih =>
    intro hnd hshape hcfg
    obtain ⟨u1, pts1⟩ := e
    simp only [dkeys_cons, List.nodup_cons] at hnd
    simp only [dkeys_cons, List.map_cons]
    congr 1
    · have hg : dgetD ((u1, pts1) :: rest) u1 [] = pts1 := by simp [dgetD, dget?]
      rw [hg, row_rebuild (hshape (u1, pts1) (List.mem_cons_self (u1, pts1) rest)) hcfg]
    · have hstep : ∀ u ∈ dkeys rest,
          (u, cfg.map fun pc => (pc.1, dgetD (dgetD ((u1, pts1) :: rest) u []) pc.1 0)) =
            (u, cfg.map fun pc => (pc.1, dgetD (dgetD rest u []) pc.1 0)) := by
        intro u hm
        have hne : ¬(u = u1) := fun hc => hnd.1 (hc ▸ hm)
        simp [dgetD, dget?, hne]
      rw [List.map_congr_left hstep]
      exact ih hnd.2 (fun up hup => hshape up (List.mem_cons_of_mem _ hup)) hcfg

/-- C6: a zero-input snapshot (`process_snapshot({}, {})`) from any
reachable rollover state leaves the rollover state unchanged, and its
pillar totals are derived purely from the prior rollover state. -/
theorem C6_zero_input_idempotent (te : ℚ) (cfg : Dict PillarConfig) (ro : Dict (Dict ℚ))
    (r : SnapshotResult) (hcfg : (dkeys cfg).Nodup) (hreach : Reachable te cfg ro)
    (hr : processSnapshot te cfg ro [] [] = some r) :
    r.rollover_points = ro ∧
    (∀ p, dget? r.pillar_totals p =
      if p ∈ dkeys cfg then some (colSum ro p) else none) := by
  obtain ⟨hnd, hshape⟩ := reachable_shape hreach
  obtain ⟨t, ht, hkt, hvt, hrun⟩ := processSnapshot_run te cfg ro [] []
  rw [hr] at hrun
  obtain rfl : r = _ := Option.some.inj hrun
  dsimp only
  have hcp : currentPoints cfg ro [] = ro := by
    rw [currentPoints_eq]
    have hau : allUsers ro [] = dkeys ro := by
      rw [allUsers]
      simp only [dkeys_nil, List.append_nil]
      exact List.Nodup.dedup hnd
    rw [hau]
    have hrow : ∀ u ∈ dkeys ro, (u, pointsRow cfg ro [] u) =
        (u, cfg.map fun pc => (pc.1, dgetD (dgetD ro u []) pc.1 0)) := by
      intro u _
      unfold pointsRow
      congr 1
      refine List.map_congr_left fun pc _ => ?_
      norm_num [dgetD, dget?]
    rw [List.map_congr_left hrow]
    exact state_rebuild hnd hshape hcfg
  have hnr : newRollover [] (currentPoints cfg ro []) = currentPoints cfg ro [] := by
    unfold newRollover
    have hstep : ∀ up ∈ currentPoints cfg ro [],
        (up.1, up.2.map fun q => (q.1, if claimGet [] up.1 q.1 then (0 : ℚ) else q.2)) =
          up := by
      intro up _
      have hmap : (up.2.map fun q =>
          (q.1, if claimGet [] up.1 q.1 then (0 : ℚ) else q.2)) = up.2.map (fun q => q) :=
        List.map_congr_left fun q _ => rfl
      rw [hmap, List.map_id']
    rw [List.map_congr_left hstep, List.map_id']
  refine ⟨?_, fun p => ?_⟩
  · rw [hnr, hcp]
  · rw [hvt p, hcp]

/-- Witness for C6: from the (reachable) initial empty state, a zero-input
call keeps the rollover empty and reports an all-zero pillar total. -/
theorem C6_zero_input_idempotent_witness :
    exEmptyResult.rollover_points = ([] : Dict (Dict ℚ)) ∧
    dget? exEmptyResult.pillar_totals "P" = some (colSum [] "P") := by
  have h := C6_zero_input_idempotent 10000 exCfg [] exEmptyResult (by decide)
    Reachable.start exRunEmpty
  refine ⟨h.1, ?_⟩
  have h2 := h.2 "P"
  rw [if_pos (show "P" ∈ dkeys exCfg by decide)] at h2
  exact h2

end TokenDist
